import Mathlib

/-!
Verification development for the similarity-clustering and spatial-network
subsystem of the grocery-store-availability analysis repository
(src/clustering.py and src/spatial_analysis.py).

Modelling conventions.

Numeric values handled by the Python code as floating-point numbers are
embedded as rationals (or as reals where a square root is required by the
source, namely for standardization and cosine similarity); floating-point
rounding is outside the scope of the embedding.

pandas DataFrames are embedded as Lean lists of records, in row order.

pandas sort_values with ascending=False computes an ascending argsort of the
key column and reverses the resulting indexer (pandas.core.sorting.nargsort).
The default sort kind, quicksort, leaves the relative order of tied keys
unspecified (numpy's introsort degenerates to a stable insertion sort only
below 16 elements), so descending sorts appear in two forms below: a
relational form quantifying over every non-increasing permutation, used
where a claim must hold for whatever tie order the program produces, and a
concrete stable insertion sort followed by a reversal, which coincides with
the program exactly on the sub-16-element inputs used in the concrete
evaluations and is one admissible refinement elsewhere. The claims settled
against the concrete sorted degree and PageRank tables use only properties
that are insensitive to the order of ties (membership and emptiness).

pandas drop_duplicates keeps the first occurrence of each duplicated row; it
is embedded as dropDupFirst below.

Python in-place mutation of a caller's DataFrame is embedded by returning the
post-state of the mutated argument alongside the ordinary return value.
-/

namespace GroceryCore

/-! Generic list machinery shared by the embeddings: a stable ascending
insertion sort (the sort kernel of the pandas sort_values embedding) and a
keep-first deduplication (the embedding of pandas drop_duplicates). -/

def insertLe {α : Type} (le : α → α → Bool) (x : α) : List α → List α
  | [] => [x]
  | y :: ys => if le x y then x :: y :: ys else y :: insertLe le x ys

def sortLe {α : Type} (le : α → α → Bool) : List α → List α
  | [] => []
  | x :: xs => insertLe le x (sortLe le xs)

def dropDupAux {α : Type} [DecidableEq α] (seen : List α) : List α → List α
  | [] => []
  | x :: xs => if x ∈ seen then dropDupAux seen xs else x :: dropDupAux (x :: seen) xs

def dropDupFirst {α : Type} [DecidableEq α] (l : List α) : List α :=
  dropDupAux [] l

/-! Embedding of perform_clustering (src/clustering.py lines 100-118), the
cluster-assignment operation. The distance-matrix construction inside it
(lines 104-108) is embedded as distanceMatrix: min-max normalize all entries
by the global minimum and maximum over the whole matrix, invert to a distance
(one minus the normalized value), then zero the diagonal, exactly as the
source does with numpy before handing the matrix to KMeans. numpy's min and
max of a matrix require a nonempty matrix, so the embedding takes an
(n+1)-by-(n+1) matrix.

The normalization (x - min) / (max - min) is IEEE float arithmetic: on a
constant matrix the divisor is zero, every numerator is zero as well, and
0.0/0.0 is NaN; one minus a non-finite value stays non-finite; fill_diagonal
then overwrites the diagonal with 0 last, so the diagonal is zero even in
that case. A float value is embedded as Option of a rational: some q is the
exact finite value and none is a non-finite float (NaN or an infinity); fdiv
embeds float division, returning none exactly when the divisor is zero, the
one place the pipeline can leave the finite domain. -/

def fdiv (a b : ℚ) : Option ℚ :=
  if b = 0 then none else some (a / b)

def minEntry {n : ℕ} (A : Matrix (Fin (n + 1)) (Fin (n + 1)) ℚ) : ℚ :=
  Finset.inf' Finset.univ Finset.univ_nonempty
    (fun p : Fin (n + 1) × Fin (n + 1) => A p.1 p.2)

def maxEntry {n : ℕ} (A : Matrix (Fin (n + 1)) (Fin (n + 1)) ℚ) : ℚ :=
  Finset.sup' Finset.univ Finset.univ_nonempty
    (fun p : Fin (n + 1) × Fin (n + 1) => A p.1 p.2)

def distanceMatrix {n : ℕ} (A : Matrix (Fin (n + 1)) (Fin (n + 1)) ℚ) :
    Matrix (Fin (n + 1)) (Fin (n + 1)) (Option ℚ) :=
  fun i j =>
    if i = j then some 0
    else Option.map (fun q => 1 - q)
      (fdiv (A i j - minEntry A) (maxEntry A - minEntry A))

/-! Embedding of get_top_similar_pairs (src/clustering.py lines 37-48).
similarity_df.unstack() flattens the matrix into (column key, row key, value)
triples in column-major order (the column label becomes GEOID_1 and the row
label GEOID_2); the self-pairs with equal labels are filtered out; the
remainder is sorted descending by similarity and truncated to the first n
rows by head(n). County labels are abstracted to natural-number keys
attached to each row/column index.

The sort uses pandas' default kind, quicksort, whose tie order is
unspecified, so the operation's contract is relational: DescendingSelection
holds of an output exactly when it is head(n) of some non-increasing
permutation of the filtered triples — every sort kind produces such an
output and nothing more is guaranteed. get_top_similar_pairs instantiates
that contract with the concrete stable insertion sort plus reversal; on
inputs with fewer than 16 filtered triples numpy's introsort is exactly a
stable insertion sort (and pandas reverses its ascending argsort for
ascending=False), so on such inputs, and in particular on the 2-by-2
counterexample evaluation below, the concrete function computes exactly what
the program computes. -/

structure PairRow where
  g1 : ℕ
  g2 : ℕ
  sim : ℚ
deriving DecidableEq

def unstackLong (n : ℕ) (keys : Fin n → ℕ) (A : Matrix (Fin n) (Fin n) ℚ) :
    List PairRow :=
  (List.finRange n).flatMap fun j =>
    (List.finRange n).map fun i => ⟨keys j, keys i, A i j⟩

def longFiltered (n : ℕ) (keys : Fin n → ℕ) (A : Matrix (Fin n) (Fin n) ℚ) :
    List PairRow :=
  (unstackLong n keys A).filter fun r => decide (r.g1 ≠ r.g2)

def simLe (a b : PairRow) : Bool :=
  decide (a.sim ≤ b.sim)

def get_top_similar_pairs (n : ℕ) (keys : Fin n → ℕ)
    (A : Matrix (Fin n) (Fin n) ℚ) (N : ℕ) : List PairRow :=
  ((sortLe simLe (longFiltered n keys A)).reverse).take N

def DescendingSelection (n : ℕ) (keys : Fin n → ℕ)
    (A : Matrix (Fin n) (Fin n) ℚ) (N : ℕ) (out : List PairRow) : Prop :=
  ∃ sorted : List PairRow,
    List.Perm sorted (longFiltered n keys A) ∧
    sorted.Pairwise (fun a b => b.sim ≤ a.sim) ∧
    out = sorted.take N

/-! Embedding of calculate_county_similarity (src/clustering.py lines
15-34). The function standardizes the feature matrix with sklearn's
StandardScaler and takes pairwise cosine similarity of the rows. The source
contains no validation and raises no exception of its own:

 - StandardScaler.fit_transform subtracts each column's mean and divides by
   the column's population standard deviation, and its helper
   _handle_zeros_in_scale replaces a zero standard deviation by 1 instead of
   failing, so a zero-variance column is mapped to an all-zero column;
 - sklearn's cosine_similarity l2-normalizes each row, substituting 1 for a
   zero row norm, and then takes dot products of the normalized rows.

Square roots force this embedding to live over the reals. The matrix must
have at least one row (fitting an empty matrix is outside the contract). -/

noncomputable def colMean {m nc : ℕ} (A : Matrix (Fin (m + 1)) (Fin nc) ℝ)
    (j : Fin nc) : ℝ :=
  (∑ i, A i j) / (m + 1)

noncomputable def colVar {m nc : ℕ} (A : Matrix (Fin (m + 1)) (Fin nc) ℝ)
    (j : Fin nc) : ℝ :=
  (∑ i, (A i j - colMean A j) ^ 2) / (m + 1)

noncomputable def colScale {m nc : ℕ} (A : Matrix (Fin (m + 1)) (Fin nc) ℝ)
    (j : Fin nc) : ℝ :=
  if Real.sqrt (colVar A j) = 0 then 1 else Real.sqrt (colVar A j)

noncomputable def scaledFeatures {m nc : ℕ}
    (A : Matrix (Fin (m + 1)) (Fin nc) ℝ) :
    Matrix (Fin (m + 1)) (Fin nc) ℝ :=
  fun i j => (A i j - colMean A j) / colScale A j

noncomputable def rowNorm {m nc : ℕ} (S : Matrix (Fin (m + 1)) (Fin nc) ℝ)
    (i : Fin (m + 1)) : ℝ :=
  Real.sqrt (∑ j, S i j ^ 2)

noncomputable def safeNorm {m nc : ℕ} (S : Matrix (Fin (m + 1)) (Fin nc) ℝ)
    (i : Fin (m + 1)) : ℝ :=
  if rowNorm S i = 0 then 1 else rowNorm S i

noncomputable def calculate_county_similarity {m nc : ℕ}
    (A : Matrix (Fin (m + 1)) (Fin nc) ℝ) :
    Matrix (Fin (m + 1)) (Fin (m + 1)) ℝ :=
  fun i k => ∑ j,
    (scaledFeatures A i j / safeNorm (scaledFeatures A) i) *
      (scaledFeatures A k j / safeNorm (scaledFeatures A) k)

/-! Embedding of evaluate_clustering_performance (src/clustering.py lines
51-71). For each k in the candidate range, in order, the source fits
KMeans(n_clusters=k) on the distance matrix and then computes a silhouette
score; the per-k numeric outputs (labels, inertia, silhouette value) come
from sklearn's seeded floating-point heuristics and are abstracted here as
oracle functions, because the claim settled against this embedding concerns
only the validation and failure flow. The validation gates embedded
concretely are exactly sklearn's: KMeans.fit rejects n_clusters below 1 and
raises a ValueError when the number of rows is below n_clusters, and
silhouette_score rejects a labelling whose number of distinct labels lies
outside the closed interval from 2 to n - 1. The repository defines no
exception class of its own; a raised exception propagates out of the loop,
so no partial sequences are ever returned — embedded with Except. -/

inductive KMeansError where
  | badNClusters (k : ℕ)
  | tooFewSamples (k n : ℕ)
  | badSilhouetteLabels (nl n : ℕ)
deriving DecidableEq

def distinctCount (l : List ℕ) : ℕ :=
  (dropDupFirst l).length

def evalStep (n : ℕ) (fitLabels : ℕ → List ℕ) (inertiaOf silOf : ℕ → ℚ)
    (k : ℕ) : Except KMeansError (ℚ × ℚ) :=
  if k < 1 then .error (.badNClusters k)
  else if n < k then .error (.tooFewSamples k n)
  else if 2 ≤ distinctCount (fitLabels k) ∧ distinctCount (fitLabels k) ≤ n - 1 then
    .ok (inertiaOf k, silOf k)
  else .error (.badSilhouetteLabels (distinctCount (fitLabels k)) n)

def evaluate_clustering_performance (n : ℕ) (fitLabels : ℕ → List ℕ)
    (inertiaOf silOf : ℕ → ℚ) :
    List ℕ → Except KMeansError (List ℕ × List ℚ × List ℚ)
  | [] => .ok ([], [], [])
  | k :: ks =>
    match evalStep n fitLabels inertiaOf silOf k with
    | .error e => .error e
    | .ok r =>
      match evaluate_clustering_performance n fitLabels inertiaOf silOf ks with
      | .error e => .error e
      | .ok rest => .ok (k :: rest.1, r.1 :: rest.2.1, r.2 :: rest.2.2)

/-! Embedding of build_adjacency_graph (src/spatial_analysis.py lines
10-46). County polygons are abstracted: each shapefile row carries integer
state and county codes and a geometry identifier, and the geometric touches
predicate is a Boolean-valued parameter T over geometry identifiers. For
each county row the source selects, in row order, every row whose geometry
touches it and records an adjacency record with the four key columns; the
record list is deduplicated with drop_duplicates (first occurrence kept,
embedded as dropDupFirst), sorted ascending by the four key columns
lexicographically, and folded into an undirected networkx graph. The
networkx Graph is embedded as the list of directed key pairs held in its
adjacency dictionary: add_edge inserts the pair in both directions unless
the edge is already present, and node insertion order is the order of first
appearance. -/

structure CountyGeom where
  state : ℕ
  county : ℕ
  geom : ℕ
deriving DecidableEq

abbrev CKey := ℕ × ℕ

def ckey (r : CountyGeom) : CKey := (r.state, r.county)

structure AdjRow where
  cs : ℕ
  cc : ℕ
  ns : ℕ
  nc : ℕ
deriving DecidableEq

def srcKey (r : AdjRow) : CKey := (r.cs, r.cc)

def nbKey (r : AdjRow) : CKey := (r.ns, r.nc)

def touchRows (T : ℕ → ℕ → Bool) (rows : List CountyGeom) : List AdjRow :=
  rows.flatMap fun c =>
    (rows.filter fun nb => T nb.geom c.geom).map fun nb =>
      ⟨c.state, c.county, nb.state, nb.county⟩

def adjLe (a b : AdjRow) : Bool :=
  decide (a.cs < b.cs) ||
    (decide (a.cs = b.cs) && (decide (a.cc < b.cc) ||
      (decide (a.cc = b.cc) && (decide (a.ns < b.ns) ||
        (decide (a.ns = b.ns) && decide (a.nc ≤ b.nc))))))

def addUEdge (G : List (CKey × CKey)) (u v : CKey) : List (CKey × CKey) :=
  if (u, v) ∈ G then G
  else if u = v then G ++ [(u, u)]
  else G ++ [(u, v), (v, u)]

def graphOfAdj (adj : List AdjRow) : List (CKey × CKey) :=
  adj.foldl (fun G r => addUEdge G (srcKey r) (nbKey r)) []

def SymCl (G : List (CKey × CKey)) : Prop :=
  ∀ u v : CKey, (u, v) ∈ G → (v, u) ∈ G

def build_adjacency_graph (T : ℕ → ℕ → Bool) (rows : List CountyGeom) :
    List AdjRow × List (CKey × CKey) :=
  (sortLe adjLe (dropDupFirst (touchRows T rows)),
    graphOfAdj (sortLe adjLe (dropDupFirst (touchRows T rows))))

/-! Embedding of get_degree_centrality (src/spatial_analysis.py lines
122-138). dict(G.degree) lists each node of the graph, in node insertion
order, with its number of incident edges; the undirected graph stores each
edge in both directions with no duplicates, so a node's degree is the
number of stored pairs whose first component is that node. The resulting
table is sorted descending by degree (stable ascending sort, reversed). -/

def nodesOf (G : List (CKey × CKey)) : List CKey :=
  dropDupFirst (G.map Prod.fst)

def degLe (a b : CKey × ℕ) : Bool :=
  decide (a.2 ≤ b.2)

def get_degree_centrality (G : List (CKey × CKey)) : List (CKey × ℕ) :=
  (sortLe degLe
    ((nodesOf G).map fun v => (v, G.countP fun e => decide (e.1 = v)))).reverse

/-! Embedding of calculate_pagerank (src/spatial_analysis.py lines 86-119).
Each weighted-network row contributes a directed edge source to neighbor
weighted by the neighbor metric; immediately afterwards, if the graph does
not yet hold a self-loop on the source, a self-loop weighted by the row's
county (source) metric is added. The networkx DiGraph is embedded as its
edge-weight dictionary together with the node list in insertion order;
add_edge on an existing edge overwrites the stored weight. nx.pagerank
returns one score per node of the graph (an empty dict on the empty graph);
the numeric scores come from a damped floating-point power iteration and are
abstracted as an oracle, one score per node, because the claims settled
against this embedding concern only the graph structure and the empty-input
failure. The score table is sorted descending by score and the single
highest-scoring county is then read with iloc[0], which raises an IndexError
on an empty table — embedded with Except. -/

structure NetRow where
  cs : ℕ
  cc : ℕ
  ns : ℕ
  nc : ℕ
  mCounty : ℚ
  mNb : ℚ
deriving DecidableEq

def nsrcKey (r : NetRow) : CKey := (r.cs, r.cc)

def nnbKey (r : NetRow) : CKey := (r.ns, r.nc)

structure WDiGraph where
  edgeW : CKey × CKey → Option ℚ
  nodes : List CKey

def addNode (ns : List CKey) (v : CKey) : List CKey :=
  if v ∈ ns then ns else ns ++ [v]

def addEdgeW (G : WDiGraph) (u v : CKey) (w : ℚ) : WDiGraph :=
  { edgeW := fun p => if p = (u, v) then some w else G.edgeW p
    nodes := addNode (addNode G.nodes u) v }

def emptyWDi : WDiGraph := ⟨fun _ => none, []⟩

def pagerankStep (G : WDiGraph) (r : NetRow) : WDiGraph :=
  let G1 := addEdgeW G (nsrcKey r) (nnbKey r) r.mNb
  if (G1.edgeW (nsrcKey r, nsrcKey r)).isSome then G1
  else addEdgeW G1 (nsrcKey r) (nsrcKey r) r.mCounty

def pagerankGraph (rows : List NetRow) : WDiGraph :=
  rows.foldl pagerankStep emptyWDi

inductive PRError where
  | emptyFrame
deriving DecidableEq

def prLe (a b : CKey × ℚ) : Bool :=
  decide (a.2 ≤ b.2)

def calculate_pagerank (score : CKey → ℚ) (rows : List NetRow) :
    Except PRError (List (CKey × ℚ) × (CKey × ℚ)) :=
  match (sortLe prLe ((pagerankGraph rows).nodes.map fun v => (v, score v))).reverse with
  | [] => .error .emptyFrame
  | top :: rest => .ok (top :: rest, top)

/-! Concrete inputs shared by the spatial witnesses and counterexamples:
three counties whose geometries 0 and 1 touch each other (the touches
predicate holds exactly when the two geometry identifiers sum to 1, which is
symmetric and irreflexive) while geometry 2 is isolated. -/

def sampleTouch : ℕ → ℕ → Bool := fun a b => decide (a + b = 1)

def sampleRows : List CountyGeom := [⟨1, 1, 0⟩, ⟨2, 2, 1⟩, ⟨3, 3, 2⟩]

/-! Embedding of analyze_cluster_characteristics (src/clustering.py lines
121-131). The operation writes a new GEOID column into the caller's
demographic table in place — the zero-padded 2-digit state code concatenated
with the zero-padded 3-digit county code — then inner-merges the table with
the cluster-label table on GEOID and returns the mean of each requested
feature column per cluster (pandas groupby sorts the cluster keys
ascending). The in-place write is embedded by returning the post-state of
the table alongside the summary. Each demographic row carries its state and
county codes, the optional GEOID column value, and the values of the
requested feature columns. -/

def zfill (w : ℕ) (n : ℕ) : String :=
  String.mk (List.replicate (w - (toString n).length) '0') ++ toString n

def mkGeoid (state county : ℕ) : String :=
  zfill 2 state ++ zfill 3 county

structure DemRow where
  state : ℕ
  county : ℕ
  geoid : Option String
  feats : List ℚ
deriving DecidableEq

def setGeoid (r : DemRow) : DemRow :=
  { r with geoid := some (mkGeoid r.state r.county) }

def natLe (a b : ℕ) : Bool :=
  decide (a ≤ b)

def meanCols (ls : List (List ℚ)) : List ℚ :=
  (List.transpose ls).map fun col => col.sum / col.length

def analyze_cluster_characteristics (data : List DemRow)
    (clustered : List (String × ℕ)) :
    List DemRow × List (ℕ × List ℚ) :=
  let data2 := data.map setGeoid
  let merged := data2.flatMap fun r =>
    (clustered.filter fun c => decide (some c.1 = r.geoid)).map fun c =>
      (c.2, r.feats)
  let clusters := sortLe natLe (dropDupFirst (merged.map Prod.fst))
  (data2, clusters.map fun cl =>
    (cl, meanCols ((merged.filter fun mr => decide (mr.1 = cl)).map Prod.snd)))

end GroceryCore

namespace GroceryCore

/-! Generic facts about the stable insertion sort. -/

theorem insertLe_perm {α : Type} (le : α → α → Bool) (x : α) (l : List α) :
    List.Perm (insertLe le x l) (x :: l) := by
  induction l with
  | nil => simp [insertLe]
  | cons y ys ih =>
    unfold insertLe
    by_cases h : le x y
    · simp [h]
    · simp only [h, if_false]
      exact ((ih.cons y).trans (List.Perm.swap x y ys))

theorem sortLe_perm {α : Type} (le : α → α → Bool) (l : List α) :
    List.Perm (sortLe le l) l := by
  induction l with
  | nil => simp [sortLe]
  | cons x xs ih =>
    unfold sortLe
    exact (insertLe_perm le x (sortLe le xs)).trans (ih.cons x)

theorem mem_sortLe {α : Type} (le : α → α → Bool) (l : List α) (a : α) :
    a ∈ sortLe le l ↔ a ∈ l :=
  (sortLe_perm le l).mem_iff

theorem pairwise_insertLe {α : Type} (le : α → α → Bool)
    (htot : ∀ a b, le a b = true ∨ le b a = true)
    (htrans : ∀ a b c, le a b = true → le b c = true → le a c = true)
    (x : α) (l : List α) (h : l.Pairwise fun a b => le a b = true) :
    (insertLe le x l).Pairwise fun a b => le a b = true := by
  induction l with
  | nil => simp [insertLe]
  | cons y ys ih =>
    rcases List.pairwise_cons.mp h with ⟨hy, hys⟩
    unfold insertLe
    by_cases hxy : le x y
    · simp only [hxy, if_true]
      refine List.pairwise_cons.mpr ⟨?_, h⟩
      intro b hb
      rcases List.mem_cons.mp hb with hb | hb
      · exact hb ▸ hxy
      · exact htrans x y b hxy (hy b hb)
    · simp only [hxy, if_false]
      refine List.pairwise_cons.mpr ⟨?_, ih hys⟩
      intro b hb
      have hb' : b ∈ x :: ys := (insertLe_perm le x ys).mem_iff.mp hb
      rcases List.mem_cons.mp hb' with hb' | hb'
      · rw [hb']
        exact (htot x y).resolve_left hxy
      · exact hy b hb'

theorem pairwise_sortLe {α : Type} (le : α → α → Bool)
    (htot : ∀ a b, le a b = true ∨ le b a = true)
    (htrans : ∀ a b c, le a b = true → le b c = true → le a c = true)
    (l : List α) :
    (sortLe le l).Pairwise fun a b => le a b = true := by
  induction l with
  | nil => simp [sortLe]
  | cons x xs ih =>
    unfold sortLe
    exact pairwise_insertLe le htot htrans x (sortLe le xs) ih

theorem minEntry_le {n : ℕ} (A : Matrix (Fin (n + 1)) (Fin (n + 1)) ℚ)
    (i j : Fin (n + 1)) : minEntry A ≤ A i j := by
  unfold minEntry
  exact Finset.inf'_le (fun p : Fin (n + 1) × Fin (n + 1) => A p.1 p.2)
    (Finset.mem_univ (⟨i, j⟩ : Fin (n + 1) × Fin (n + 1)))

theorem le_maxEntry {n : ℕ} (A : Matrix (Fin (n + 1)) (Fin (n + 1)) ℚ)
    (i j : Fin (n + 1)) : A i j ≤ maxEntry A := by
  unfold maxEntry
  exact Finset.le_sup' (fun p : Fin (n + 1) × Fin (n + 1) => A p.1 p.2)
    (Finset.mem_univ (⟨i, j⟩ : Fin (n + 1) × Fin (n + 1)))

/-- Claim C1, amended: the distance matrix computed inside perform_clustering
has an all-zero diagonal regardless of the input (fill_diagonal runs last),
and WHENEVER the similarity matrix is not constant — its global maximum
exceeds its global minimum — every entry is a finite value in the interval
from 0 to 1 and symmetry of the input is preserved. On a constant matrix the
normalization divides zero by zero, every off-diagonal entry is NaN (a
non-finite value, outside any interval, and unequal to itself under float
comparison), which the counterexample exhibits. -/
theorem spec_C1 {n : ℕ} (A : Matrix (Fin (n + 1)) (Fin (n + 1)) ℚ) :
    (∀ i, distanceMatrix A i i = some 0) ∧
    (minEntry A < maxEntry A →
      (∀ i j, ∃ q, distanceMatrix A i j = some q ∧ 0 ≤ q ∧ q ≤ 1) ∧
      ((∀ i j, A i j = A j i) →
        ∀ i j, distanceMatrix A i j = distanceMatrix A j i)) := by
  constructor
  · intro i
    simp [distanceMatrix]
  · intro hlt
    have hdpos : 0 < maxEntry A - minEntry A := sub_pos.mpr hlt
    have hdne : maxEntry A - minEntry A ≠ 0 := ne_of_gt hdpos
    constructor
    · intro i j
      by_cases hij : i = j
      · exact ⟨0, by simp [distanceMatrix, hij], le_refl 0, by norm_num⟩
      · refine ⟨1 - (A i j - minEntry A) / (maxEntry A - minEntry A),
          by simp [distanceMatrix, hij, fdiv, hdne], ?_, ?_⟩
        · have h1 : (A i j - minEntry A) / (maxEntry A - minEntry A) ≤ 1 :=
            (div_le_one hdpos).mpr (by have := le_maxEntry A i j; linarith)
          linarith
        · have h0 : 0 ≤ (A i j - minEntry A) / (maxEntry A - minEntry A) :=
            div_nonneg (sub_nonneg.mpr (minEntry_le A i j)) (le_of_lt hdpos)
          linarith
    · intro hsym i j
      by_cases hij : i = j
      · rw [hij]
      · have hji : ¬ j = i := fun h => hij h.symm
        simp only [distanceMatrix, hij, hji, if_false, hsym i j]

theorem simLe_total (a b : PairRow) : simLe a b = true ∨ simLe b a = true := by
  simp only [simLe, decide_eq_true_eq]
  exact le_total a.sim b.sim

theorem simLe_trans (a b c : PairRow) (h1 : simLe a b = true)
    (h2 : simLe b c = true) : simLe a c = true := by
  simp only [simLe, decide_eq_true_eq] at h1 h2 ⊢
  exact le_trans h1 h2

/-- Claim C2, amended: for every similarity matrix and every N, every output
the top-N extraction can produce — head(N) of some non-increasing permutation
of the filtered triples, which is all the unspecified-tie-order quicksort
guarantees — contains no triple whose two county identifiers are equal and
is sorted non-increasing by similarity. The tie-break clause of the original
claim is dropped: the program guarantees no particular order among tied
similarities, and on the concrete counterexample input the tied triples in
fact appear in reversed enumeration order. -/
theorem spec_C2 (n : ℕ) (keys : Fin n → ℕ) (A : Matrix (Fin n) (Fin n) ℚ)
    (N : ℕ) (out : List PairRow) (h : DescendingSelection n keys A N out) :
    (∀ r ∈ out, r.g1 ≠ r.g2) ∧
    out.Pairwise (fun a b => b.sim ≤ a.sim) := by
  rcases h with ⟨sorted, hperm, hsort, rfl⟩
  constructor
  · intro r hr
    have h1 : r ∈ sorted := List.mem_of_mem_take hr
    have h2 : r ∈ longFiltered n keys A := hperm.mem_iff.mp h1
    have h3 := List.mem_filter.mp h2
    simpa using h3.2
  · exact hsort.sublist (List.take_sublist N sorted)

/-- The concrete embedding of get_top_similar_pairs — stable insertion sort
plus reversal, one admissible refinement of the quicksort the source calls —
satisfies the relational descending-selection contract. -/
theorem get_top_descendingSelection (n : ℕ) (keys : Fin n → ℕ)
    (A : Matrix (Fin n) (Fin n) ℚ) (N : ℕ) :
    DescendingSelection n keys A N (get_top_similar_pairs n keys A N) := by
  refine ⟨(sortLe simLe (longFiltered n keys A)).reverse, ?_, ?_, rfl⟩
  · exact (List.reverse_perm _).trans (sortLe_perm simLe _)
  · have hs := pairwise_sortLe simLe simLe_total simLe_trans (longFiltered n keys A)
    have hs' : (sortLe simLe (longFiltered n keys A)).Pairwise
        (fun a b => a.sim ≤ b.sim) := by
      refine hs.imp ?_
      intro a b hab
      simpa [simLe] using hab
    exact List.pairwise_reverse.mpr hs'

/-- Witness for C2: the descending-selection hypothesis is discharged at the
concrete 2-by-2 input by the concrete extraction itself. -/
theorem spec_C2_witness :
    DescendingSelection 2 ![10, 20] (!![(1 : ℚ), 5; 5, 1]) 100
      (get_top_similar_pairs 2 ![10, 20] (!![(1 : ℚ), 5; 5, 1]) 100) ∧
    (∀ r ∈ get_top_similar_pairs 2 ![10, 20] (!![(1 : ℚ), 5; 5, 1]) 100,
      r.g1 ≠ r.g2) ∧
    (get_top_similar_pairs 2 ![10, 20] (!![(1 : ℚ), 5; 5, 1]) 100).Pairwise
      (fun a b => b.sim ≤ a.sim) := by
  have h := get_top_descendingSelection 2 ![10, 20] (!![(1 : ℚ), 5; 5, 1]) 100
  have h2 := spec_C2 2 ![10, 20] (!![(1 : ℚ), 5; 5, 1]) 100
    (get_top_similar_pairs 2 ![10, 20] (!![(1 : ℚ), 5; 5, 1]) 100) h
  exact ⟨h, h2.1, h2.2⟩

/-- Counterexample for C2 as stated: on a concrete symmetric 2-by-2
similarity matrix every off-diagonal similarity is tied, the filtered
column-major enumeration lists the pair with column key 10 first, yet the
extraction returns the pair with column key 20 first, so tied triples do not
appear in the original enumeration order. On this input the concrete
embedding computes exactly what the program computes: with only two filtered
triples numpy's introsort is a stable insertion sort, and pandas reverses
the ascending argsort for a descending sort. -/
theorem spec_C2_counterexample :
    get_top_similar_pairs 2 ![10, 20] (!![(1 : ℚ), 5; 5, 1]) 100 =
      [⟨20, 10, 5⟩, ⟨10, 20, 5⟩] ∧
    longFiltered 2 ![10, 20] (!![(1 : ℚ), 5; 5, 1]) =
      [⟨10, 20, 5⟩, ⟨20, 10, 5⟩] ∧
    (get_top_similar_pairs 2 ![10, 20] (!![(1 : ℚ), 5; 5, 1]) 100).filter
        (fun r => decide (r.sim = 5)) ≠
      (longFiltered 2 ![10, 20] (!![(1 : ℚ), 5; 5, 1])).filter
        (fun r => decide (r.sim = 5)) := by
  refine ⟨by decide, by decide, by decide⟩

/-- Claim C3, amended: the similarity computation does not fail on a
zero-variance feature column. StandardScaler substitutes a scale of 1 for
the zero standard deviation, so the standardized column is all zeros and the
computation proceeds to produce a similarity matrix; no error of any kind is
raised by the source. -/
theorem spec_C3 {m nc : ℕ} (A : Matrix (Fin (m + 1)) (Fin nc) ℝ)
    (j : Fin nc) (h : colVar A j = 0) :
    ∀ i, scaledFeatures A i j = 0 := by
  intro i
  have hm : (0 : ℝ) < (m + 1 : ℝ) := by positivity
  have hsum : (∑ i, (A i j - colMean A j) ^ 2) = 0 := by
    unfold colVar at h
    field_simp at h
    exact h
  have hterm : (A i j - colMean A j) ^ 2 = 0 := by
    have hnn : ∀ i' ∈ Finset.univ, (0 : ℝ) ≤ (A i' j - colMean A j) ^ 2 :=
      fun i' _ => sq_nonneg _
    exact (Finset.sum_eq_zero_iff_of_nonneg hnn).mp hsum i (Finset.mem_univ i)
  have hz : A i j - colMean A j = 0 := by
    exact pow_eq_zero_iff (by norm_num) |>.mp hterm
  unfold scaledFeatures
  rw [hz, zero_div]

/-- Witness for C3: on a concrete 2-by-2 feature matrix whose first column
is constant, the zero-variance hypothesis is discharged by computation and
the theorem yields the all-zero standardized column. -/
theorem spec_C3_witness :
    colVar (!![(5 : ℝ), 0; 5, 2]) 0 = 0 ∧
    scaledFeatures (!![(5 : ℝ), 0; 5, 2]) 0 0 = 0 := by
  have h : colVar (!![(5 : ℝ), 0; 5, 2]) 0 = 0 := by
    simp [colVar, colMean, Fin.sum_univ_two]
    norm_num
  exact ⟨h, spec_C3 (!![(5 : ℝ), 0; 5, 2]) 0 h 0⟩

/-- Counterexample for C3 as stated: the same concrete feature matrix has a
zero-variance first column, yet the similarity computation does not fail —
it produces this concrete similarity matrix. -/
theorem spec_C3_counterexample :
    calculate_county_similarity (!![(5 : ℝ), 0; 5, 2]) =
      !![(1 : ℝ), -1; -1, 1] := by
  have hmean0 : colMean (!![(5 : ℝ), 0; 5, 2]) 0 = 5 := by
    simp [colMean, Fin.sum_univ_two]
    norm_num
  have hmean1 : colMean (!![(5 : ℝ), 0; 5, 2]) 1 = 1 := by
    simp [colMean, Fin.sum_univ_two]
    norm_num
  have hvar0 : colVar (!![(5 : ℝ), 0; 5, 2]) 0 = 0 := by
    simp [colVar, hmean0, Fin.sum_univ_two]
  have hvar1 : colVar (!![(5 : ℝ), 0; 5, 2]) 1 = 1 := by
    simp [colVar, hmean1, Fin.sum_univ_two]
    norm_num
  have hscale0 : colScale (!![(5 : ℝ), 0; 5, 2]) 0 = 1 := by
    simp [colScale, hvar0]
  have hscale1 : colScale (!![(5 : ℝ), 0; 5, 2]) 1 = 1 := by
    simp [colScale, hvar1]
  have hS : scaledFeatures (!![(5 : ℝ), 0; 5, 2]) = !![(0 : ℝ), -1; 0, 1] := by
    ext i j
    fin_cases i <;> fin_cases j <;>
      first
      | · simp [scaledFeatures, hmean0, hmean1, hscale0, hscale1]
          norm_num
      | simp [scaledFeatures, hmean0, hmean1, hscale0, hscale1]
  have hnorm : ∀ i, safeNorm (scaledFeatures (!![(5 : ℝ), 0; 5, 2])) i = 1 := by
    intro i
    rw [hS]
    fin_cases i <;> simp [safeNorm, rowNorm, Fin.sum_univ_two]
  ext i k
  unfold calculate_county_similarity
  rw [hnorm i, hnorm k, hS]
  fin_cases i <;> fin_cases k <;> simp [Fin.sum_univ_two]

/-- Claim C4: for every distance matrix with n rows and every candidate
range of cluster counts, if some k in the range exceeds n then the
clustering-evaluation operation fails (sklearn's KMeans validation raises at
the first such k, and the exception propagates), so no result — partial or
otherwise — is returned. -/
theorem spec_C4 (n : ℕ) (fitLabels : ℕ → List ℕ) (inertiaOf silOf : ℕ → ℚ)
    (kRange : List ℕ) (h : ∃ k ∈ kRange, n < k) :
    ∃ e, evaluate_clustering_performance n fitLabels inertiaOf silOf kRange =
      Except.error e := by
  induction kRange with
  | nil => simp at h
  | cons k ks ih =>
    cases hstep : evalStep n fitLabels inertiaOf silOf k with
    | error e =>
      refine ⟨e, ?_⟩
      unfold evaluate_clustering_performance
      rw [hstep]
    | ok r =>
      have h1 : ¬ k < 1 := by
        intro hk
        simp [evalStep, hk] at hstep
      have h2 : ¬ n < k := by
        intro hk
        simp [evalStep, h1, hk] at hstep
      rcases h with ⟨k0, hmem, hgt⟩
      rcases List.mem_cons.mp hmem with hk0 | hk0
      · exact absurd (hk0 ▸ hgt) h2
      · rcases ih ⟨k0, hk0, hgt⟩ with ⟨e, he⟩
        refine ⟨e, ?_⟩
        unfold evaluate_clustering_performance
        rw [hstep, he]

/-- Witness for C4: with 10 rows and candidate range containing 42, the
hypothesis is discharged by computation and the evaluation fails. -/
theorem spec_C4_witness :
    (∃ k ∈ [2, 3, 42], 10 < k) ∧
    ∃ e, evaluate_clustering_performance 10 (fun _ => []) (fun _ => 0)
      (fun _ => 0) [2, 3, 42] = Except.error e :=
  ⟨by decide, spec_C4 10 (fun _ => []) (fun _ => 0) (fun _ => 0) [2, 3, 42] (by decide)⟩

/-- Witness for C1: on a concrete non-constant symmetric 2-by-2 similarity
matrix the strict min-max hypothesis and the symmetry hypothesis are
discharged, and the theorem yields a finite in-range entry, symmetry, and
the zero diagonal at concrete indices. -/
theorem spec_C1_witness :
    distanceMatrix (!![(1 : ℚ), 2; 2, 4]) 0 0 = some 0 ∧
    (∃ q, distanceMatrix (!![(1 : ℚ), 2; 2, 4]) 0 1 = some q ∧ 0 ≤ q ∧ q ≤ 1) ∧
    distanceMatrix (!![(1 : ℚ), 2; 2, 4]) 0 1 =
      distanceMatrix (!![(1 : ℚ), 2; 2, 4]) 1 0 := by
  have hlt : minEntry (!![(1 : ℚ), 2; 2, 4]) < maxEntry (!![(1 : ℚ), 2; 2, 4]) := by
    have h1 : minEntry (!![(1 : ℚ), 2; 2, 4]) ≤ 1 := by
      have := minEntry_le (!![(1 : ℚ), 2; 2, 4]) 0 0
      simpa using this
    have h2 : (4 : ℚ) ≤ maxEntry (!![(1 : ℚ), 2; 2, 4]) := by
      have := le_maxEntry (!![(1 : ℚ), 2; 2, 4]) 1 1
      simpa using this
    linarith
  exact ⟨(spec_C1 (!![(1 : ℚ), 2; 2, 4])).1 0,
    ((spec_C1 (!![(1 : ℚ), 2; 2, 4])).2 hlt).1 0 1,
    ((spec_C1 (!![(1 : ℚ), 2; 2, 4])).2 hlt).2 (by decide) 0 1⟩

/-- Counterexample for C1 as stated: on the constant similarity matrix every
entry equals both the global minimum and the global maximum, so the
normalization computes 0/0; the off-diagonal entries of the distance matrix
are NaN — non-finite, so no entry value in the interval from 0 to 1 exists.
The constant matrix is a reachable input: two identical feature rows
standardize identically and cosine similarity then yields a constant
matrix. -/
theorem spec_C1_counterexample :
    distanceMatrix (!![(3 : ℚ), 3; 3, 3]) 0 1 = none ∧
    ∀ q : ℚ, distanceMatrix (!![(3 : ℚ), 3; 3, 3]) 0 1 ≠ some q := by
  have hmaxle : maxEntry (!![(3 : ℚ), 3; 3, 3]) ≤ 3 := by
    unfold maxEntry
    refine Finset.sup'_le _ _ ?_
    intro p _
    fin_cases p <;> simp
  have hminge : (3 : ℚ) ≤ minEntry (!![(3 : ℚ), 3; 3, 3]) := by
    unfold minEntry
    refine Finset.le_inf' _ _ ?_
    intro p _
    fin_cases p <;> simp
  have h3max : (3 : ℚ) ≤ maxEntry (!![(3 : ℚ), 3; 3, 3]) := by
    have := le_maxEntry (!![(3 : ℚ), 3; 3, 3]) 0 0
    simpa using this
  have h3min : minEntry (!![(3 : ℚ), 3; 3, 3]) ≤ 3 := by
    have := minEntry_le (!![(3 : ℚ), 3; 3, 3]) 0 0
    simpa using this
  have hd : maxEntry (!![(3 : ℚ), 3; 3, 3]) - minEntry (!![(3 : ℚ), 3; 3, 3]) = 0 := by
    have hmax : maxEntry (!![(3 : ℚ), 3; 3, 3]) = 3 := le_antisymm hmaxle h3max
    have hmin : minEntry (!![(3 : ℚ), 3; 3, 3]) = 3 := le_antisymm h3min hminge
    rw [hmax, hmin]
    ring
  have hentry : distanceMatrix (!![(3 : ℚ), 3; 3, 3]) 0 1 = none := by
    unfold distanceMatrix
    rw [if_neg (by decide : ¬ (0 : Fin 2) = 1), hd]
    unfold fdiv
    rw [if_pos rfl]
    rfl
  refine ⟨hentry, ?_⟩
  intro q
  rw [hentry]
  exact fun hcontra => Option.noConfusion hcontra

end GroceryCore

namespace GroceryCore

/-! Facts about keep-first deduplication. -/

theorem mem_dropDupAux {α : Type} [DecidableEq α] (l : List α) :
    ∀ (seen : List α) (a : α), a ∈ dropDupAux seen l ↔ a ∈ l ∧ a ∉ seen := by
  induction l with
  | nil => intro seen a; simp [dropDupAux]
  | cons x xs ih =>
    intro seen a
    unfold dropDupAux
    by_cases hx : x ∈ seen
    · rw [if_pos hx, ih]
      constructor
      · rintro ⟨h1, h2⟩
        exact ⟨List.mem_cons_of_mem x h1, h2⟩
      · rintro ⟨h1, h2⟩
        rcases List.mem_cons.mp h1 with h1 | h1
        · exact absurd (h1 ▸ hx) h2
        · exact ⟨h1, h2⟩
    · rw [if_neg hx]
      constructor
      · intro h
        rcases List.mem_cons.mp h with h | h
        · exact ⟨h ▸ List.mem_cons_self x xs, h ▸ hx⟩
        · rcases (ih (x :: seen) a).mp h with ⟨h1, h2⟩
          exact ⟨List.mem_cons_of_mem x h1,
            fun hs => h2 (List.mem_cons_of_mem x hs)⟩
      · rintro ⟨h1, h2⟩
        rcases List.mem_cons.mp h1 with h1 | h1
        · exact h1 ▸ List.mem_cons_self x _
        · by_cases hax : a = x
          · exact hax ▸ List.mem_cons_self x _
          · exact List.mem_cons_of_mem x ((ih (x :: seen) a).mpr
              ⟨h1, fun hs => (List.mem_cons.mp hs).elim hax h2⟩)

theorem mem_dropDupFirst {α : Type} [DecidableEq α] (l : List α) (a : α) :
    a ∈ dropDupFirst l ↔ a ∈ l := by
  unfold dropDupFirst
  rw [mem_dropDupAux]
  simp

theorem nodup_dropDupAux {α : Type} [DecidableEq α] (l : List α) :
    ∀ seen : List α, (dropDupAux seen l).Nodup := by
  induction l with
  | nil => intro seen; simp [dropDupAux]
  | cons x xs ih =>
    intro seen
    unfold dropDupAux
    by_cases hx : x ∈ seen
    · rw [if_pos hx]; exact ih seen
    · rw [if_neg hx]
      refine List.nodup_cons.mpr ⟨?_, ih (x :: seen)⟩
      intro hmem
      exact ((mem_dropDupAux xs (x :: seen) x).mp hmem).2 (List.mem_cons_self x seen)

theorem nodup_dropDupFirst {α : Type} [DecidableEq α] (l : List α) :
    (dropDupFirst l).Nodup :=
  nodup_dropDupAux l []

/-! Totality and transitivity of the four-column lexicographic order used to
sort the adjacency list. -/

theorem adjLe_total (a b : AdjRow) : adjLe a b = true ∨ adjLe b a = true := by
  simp only [adjLe, Bool.or_eq_true, Bool.and_eq_true, decide_eq_true_eq]
  omega

theorem adjLe_trans (a b c : AdjRow) (h1 : adjLe a b = true)
    (h2 : adjLe b c = true) : adjLe a c = true := by
  simp only [adjLe, Bool.or_eq_true, Bool.and_eq_true, decide_eq_true_eq] at h1 h2 ⊢
  omega

/-! Structural facts about the undirected-graph fold. -/

theorem subset_addUEdge (G : List (CKey × CKey)) (u v : CKey) :
    G ⊆ addUEdge G u v := by
  unfold addUEdge
  by_cases h1 : (u, v) ∈ G
  · rw [if_pos h1]
    exact fun _ h => h
  · rw [if_neg h1]
    by_cases h2 : u = v
    · rw [if_pos h2]; exact List.subset_append_left _ _
    · rw [if_neg h2]; exact List.subset_append_left _ _

theorem mem_addUEdge_self (G : List (CKey × CKey)) (u v : CKey)
    (hsc : SymCl G) : (u, v) ∈ addUEdge G u v ∧ (v, u) ∈ addUEdge G u v := by
  unfold addUEdge
  by_cases h1 : (u, v) ∈ G
  · rw [if_pos h1]
    exact ⟨h1, hsc u v h1⟩
  · rw [if_neg h1]
    by_cases h2 : u = v
    · subst h2
      rw [if_pos rfl]
      constructor <;> exact List.mem_append_right _ (List.mem_singleton.mpr rfl)
    · rw [if_neg h2]
      constructor <;>
        · refine List.mem_append_right _ ?_
          simp
  -- both directed copies are appended when the edge is new

theorem symCl_addUEdge (G : List (CKey × CKey)) (u v : CKey) (hsc : SymCl G) :
    SymCl (addUEdge G u v) := by
  intro a b hab
  unfold addUEdge at hab ⊢
  by_cases h1 : (u, v) ∈ G
  · rw [if_pos h1] at hab ⊢
    exact hsc a b hab
  · rw [if_neg h1] at hab ⊢
    by_cases h2 : u = v
    · subst h2
      rw [if_pos rfl] at hab ⊢
      rcases List.mem_append.mp hab with h | h
      · exact List.mem_append_left _ (hsc a b h)
      · simp at h
        rcases h with ⟨ha, hb⟩
        subst ha; subst hb
        exact List.mem_append_right _ (by simp)
    · rw [if_neg h2] at hab ⊢
      rcases List.mem_append.mp hab with h | h
      · exact List.mem_append_left _ (hsc a b h)
      · simp at h
        rcases h with ⟨ha, hb⟩ | ⟨ha, hb⟩
        · subst ha; subst hb
          exact List.mem_append_right _ (by simp)
        · subst ha; subst hb
          exact List.mem_append_right _ (by simp)

theorem nodup_addUEdge (G : List (CKey × CKey)) (u v : CKey) (hsc : SymCl G)
    (hnd : G.Nodup) : (addUEdge G u v).Nodup := by
  unfold addUEdge
  by_cases h1 : (u, v) ∈ G
  · rw [if_pos h1]; exact hnd
  · rw [if_neg h1]
    by_cases h2 : u = v
    · subst h2
      rw [if_pos rfl]
      refine List.Nodup.append hnd (by simp) ?_
      intro p hp hq
      simp at hq
      subst hq
      exact h1 hp
    · rw [if_neg h2]
      refine List.Nodup.append hnd ?_ ?_
      · refine List.nodup_cons.mpr ⟨?_, by simp⟩
        simp only [List.mem_singleton]
        intro h
        exact h2 (congrArg Prod.fst h)
      · intro p hp hq
        simp at hq
        rcases hq with hq | hq
        · subst hq; exact h1 hp
        · subst hq
          exact h1 (hsc v u hp)

theorem graphOfAdj_invariants (adj : List AdjRow) :
    ∀ G : List (CKey × CKey), SymCl G → G.Nodup →
      SymCl (adj.foldl (fun G r => addUEdge G (srcKey r) (nbKey r)) G) ∧
      (adj.foldl (fun G r => addUEdge G (srcKey r) (nbKey r)) G).Nodup ∧
      G ⊆ adj.foldl (fun G r => addUEdge G (srcKey r) (nbKey r)) G := by
  induction adj with
  | nil =>
    intro G hsc hnd
    exact ⟨hsc, hnd, fun _ h => h⟩
  | cons r rs ih =>
    intro G hsc hnd
    have hsc' := symCl_addUEdge G (srcKey r) (nbKey r) hsc
    have hnd' := nodup_addUEdge G (srcKey r) (nbKey r) hsc hnd
    rcases ih (addUEdge G (srcKey r) (nbKey r)) hsc' hnd' with ⟨h1, h2, h3⟩
    exact ⟨h1, h2, fun p hp => h3 (subset_addUEdge G (srcKey r) (nbKey r) hp)⟩

theorem subset_graphFold (adj : List AdjRow) :
    ∀ G : List (CKey × CKey),
      G ⊆ adj.foldl (fun G r => addUEdge G (srcKey r) (nbKey r)) G := by
  induction adj with
  | nil =>
    intro G
    exact fun _ h => h
  | cons r rs ih =>
    intro G
    exact fun p hp =>
      ih (addUEdge G (srcKey r) (nbKey r)) (subset_addUEdge G _ _ hp)

theorem mem_graphOfAdj_of_mem (adj : List AdjRow) (r : AdjRow) (hr : r ∈ adj) :
    (srcKey r, nbKey r) ∈ graphOfAdj adj ∧
    (nbKey r, srcKey r) ∈ graphOfAdj adj := by
  unfold graphOfAdj
  suffices h : ∀ G : List (CKey × CKey), r ∈ adj → SymCl G →
      (srcKey r, nbKey r) ∈ adj.foldl (fun G r => addUEdge G (srcKey r) (nbKey r)) G ∧
      (nbKey r, srcKey r) ∈ adj.foldl (fun G r => addUEdge G (srcKey r) (nbKey r)) G by
    exact h [] hr (fun u v h => by simp at h)
  clear hr
  induction adj with
  | nil =>
    intro G hr
    simp at hr
  | cons a rs ih =>
    intro G hr hsc
    rcases List.mem_cons.mp hr with hr' | hr'
    · subst hr'
      have hmem := mem_addUEdge_self G (srcKey r) (nbKey r) hsc
      have hsub := subset_graphFold rs (addUEdge G (srcKey r) (nbKey r))
      exact ⟨hsub hmem.1, hsub hmem.2⟩
    · exact ih (addUEdge G (srcKey a) (nbKey a)) hr' (symCl_addUEdge G _ _ hsc)

end GroceryCore

namespace GroceryCore

theorem mem_addUEdge_inv (G : List (CKey × CKey)) (u v : CKey)
    (e : CKey × CKey) (he : e ∈ addUEdge G u v) :
    e ∈ G ∨ e = (u, v) ∨ e = (v, u) := by
  unfold addUEdge at he
  by_cases h1 : (u, v) ∈ G
  · rw [if_pos h1] at he
    exact Or.inl he
  · rw [if_neg h1] at he
    by_cases h2 : u = v
    · rw [if_pos h2] at he
      rcases List.mem_append.mp he with h | h
      · exact Or.inl h
      · simp at h
        exact Or.inr (Or.inl (by rw [h, h2]))
    · rw [if_neg h2] at he
      rcases List.mem_append.mp he with h | h
      · exact Or.inl h
      · simp at h
        rcases h with h | h
        · exact Or.inr (Or.inl h)
        · exact Or.inr (Or.inr h)

theorem mem_graphOfAdj_inv (adj : List AdjRow) :
    ∀ (G : List (CKey × CKey)) (e : CKey × CKey),
      e ∈ adj.foldl (fun G r => addUEdge G (srcKey r) (nbKey r)) G →
      e ∈ G ∨ ∃ r ∈ adj, e = (srcKey r, nbKey r) ∨ e = (nbKey r, srcKey r) := by
  induction adj with
  | nil =>
    intro G e he
    exact Or.inl he
  | cons a rs ih =>
    intro G e he
    rcases ih (addUEdge G (srcKey a) (nbKey a)) e he with h | ⟨r, hr, h⟩
    · rcases mem_addUEdge_inv G (srcKey a) (nbKey a) e h with h | h
      · exact Or.inl h
      · exact Or.inr ⟨a, List.mem_cons_self a rs, h⟩
    · exact Or.inr ⟨r, List.mem_cons_of_mem a hr, h⟩

theorem mem_touchRows (T : ℕ → ℕ → Bool) (rows : List CountyGeom)
    (a : AdjRow) :
    a ∈ touchRows T rows ↔ ∃ c ∈ rows, ∃ nb ∈ rows,
      T nb.geom c.geom = true ∧
      a = (⟨c.state, c.county, nb.state, nb.county⟩ : AdjRow) := by
  unfold touchRows
  constructor
  · intro h
    rcases List.mem_flatMap.mp h with ⟨c, hc, h⟩
    rcases List.mem_map.mp h with ⟨nb, hnb, heq⟩
    rcases List.mem_filter.mp hnb with ⟨hnb', ht⟩
    exact ⟨c, hc, nb, hnb', by simpa using ht, heq.symm⟩
  · rintro ⟨c, hc, nb, hnb, ht, rfl⟩
    refine List.mem_flatMap.mpr ⟨c, hc, ?_⟩
    exact List.mem_map.mpr ⟨nb, List.mem_filter.mpr ⟨hnb, by simpa using ht⟩, rfl⟩

theorem mem_adjList (T : ℕ → ℕ → Bool) (rows : List CountyGeom)
    (a : AdjRow) :
    a ∈ (build_adjacency_graph T rows).1 ↔ a ∈ touchRows T rows := by
  unfold build_adjacency_graph
  rw [(sortLe_perm adjLe (dropDupFirst (touchRows T rows))).mem_iff]
  exact mem_dropDupFirst _ _

/-- Claim C7: whenever polygon A touches polygon B (the touches relation
being symmetric and irreflexive, with no duplicate county keys in the
input), the adjacency list of build_adjacency_graph contains the record in
both directions and the undirected graph contains both directed copies of
the edge; the adjacency list is deduplicated and sorted ascending by the
four key columns; the graph holds no self-loop and no duplicate edge; and
building twice from the same input yields the same result. -/
theorem spec_C7 (T : ℕ → ℕ → Bool) (rows : List CountyGeom)
    (hsym : ∀ a b, T a b = T b a) (hirr : ∀ g, T g g = false)
    (hkeys : (rows.map ckey).Nodup) :
    (∀ a ∈ rows, ∀ b ∈ rows, T a.geom b.geom = true →
      ((⟨a.state, a.county, b.state, b.county⟩ : AdjRow) ∈ (build_adjacency_graph T rows).1 ∧
       (⟨b.state, b.county, a.state, a.county⟩ : AdjRow) ∈ (build_adjacency_graph T rows).1 ∧
       (ckey a, ckey b) ∈ (build_adjacency_graph T rows).2 ∧
       (ckey b, ckey a) ∈ (build_adjacency_graph T rows).2)) ∧
    (build_adjacency_graph T rows).1.Nodup ∧
    (build_adjacency_graph T rows).1.Pairwise (fun x y => adjLe x y = true) ∧
    (∀ k : CKey, (k, k) ∉ (build_adjacency_graph T rows).2) ∧
    (build_adjacency_graph T rows).2.Nodup ∧
    build_adjacency_graph T rows = build_adjacency_graph T rows := by
  have hinj : ∀ x ∈ rows, ∀ y ∈ rows, ckey x = ckey y → x = y :=
    List.inj_on_of_nodup_map hkeys
  refine ⟨?_, ?_, ?_, ?_, ?_, rfl⟩
  · intro a ha b hb ht
    have htba : T b.geom a.geom = true := (hsym b.geom a.geom).trans ht
    have h1 : (⟨a.state, a.county, b.state, b.county⟩ : AdjRow) ∈
        (build_adjacency_graph T rows).1 :=
      (mem_adjList T rows _).mpr
        ((mem_touchRows T rows _).mpr ⟨a, ha, b, hb, htba, rfl⟩)
    have h2 : (⟨b.state, b.county, a.state, a.county⟩ : AdjRow) ∈
        (build_adjacency_graph T rows).1 :=
      (mem_adjList T rows _).mpr
        ((mem_touchRows T rows _).mpr ⟨b, hb, a, ha, ht, rfl⟩)
    have hg1 := mem_graphOfAdj_of_mem (build_adjacency_graph T rows).1 _ h1
    exact ⟨h1, h2, hg1.1, hg1.2⟩
  · exact (sortLe_perm adjLe _).nodup_iff.mpr (nodup_dropDupFirst _)
  · exact pairwise_sortLe adjLe adjLe_total adjLe_trans _
  · intro k hk
    rcases mem_graphOfAdj_inv (build_adjacency_graph T rows).1 [] (k, k) hk with
      h | ⟨r, hr, h⟩
    · simp at h
    · have hra : r ∈ touchRows T rows := (mem_adjList T rows r).mp hr
      rcases (mem_touchRows T rows r).mp hra with ⟨c, hc, nb, hnb, ht, rfl⟩
      have hkeq : ckey c = ckey nb := by
        rcases h with h | h
        · have h1 : k = srcKey ⟨c.state, c.county, nb.state, nb.county⟩ :=
            congrArg Prod.fst h
          have h2 : k = nbKey ⟨c.state, c.county, nb.state, nb.county⟩ :=
            congrArg Prod.snd h
          exact h1.symm.trans h2
        · have h1 : k = nbKey ⟨c.state, c.county, nb.state, nb.county⟩ :=
            congrArg Prod.fst h
          have h2 : k = srcKey ⟨c.state, c.county, nb.state, nb.county⟩ :=
            congrArg Prod.snd h
          exact h2.symm.trans h1
      have hcnb : c = nb := hinj c hc nb hnb hkeq
      rw [hcnb] at ht
      rw [hirr nb.geom] at ht
      exact Bool.false_ne_true ht
  · exact (graphOfAdj_invariants (build_adjacency_graph T rows).1 []
      (fun u v h => by simp at h) (by simp)).2.1

end GroceryCore

namespace GroceryCore

/-- Claim C5, amended: a county present in the input but with no adjacency
edges does not appear in the degree-centrality output at all — the graph
built by build_adjacency_graph only ever receives nodes through add_edge, so
an isolated county is absent from the table rather than reported with a
degree of 0. -/
theorem spec_C5 (T : ℕ → ℕ → Bool) (rows : List CountyGeom)
    (hkeys : (rows.map ckey).Nodup) (c : CountyGeom) (hc : c ∈ rows)
    (hiso : ∀ r ∈ rows, T c.geom r.geom = false ∧ T r.geom c.geom = false) :
    ∀ p ∈ get_degree_centrality (build_adjacency_graph T rows).2,
      p.1 ≠ ckey c := by
  have hinj : ∀ x ∈ rows, ∀ y ∈ rows, ckey x = ckey y → x = y :=
    List.inj_on_of_nodup_map hkeys
  intro p hp heq
  unfold get_degree_centrality at hp
  rw [List.mem_reverse, mem_sortLe] at hp
  rcases List.mem_map.mp hp with ⟨v, hv, hpv⟩
  have hveq : v = ckey c := by
    rw [← heq, ← hpv]
  rw [hveq] at hv
  have hv' : ckey c ∈ (build_adjacency_graph T rows).2.map Prod.fst := by
    unfold nodesOf at hv
    exact (mem_dropDupFirst _ _).mp hv
  rcases List.mem_map.mp hv' with ⟨e, he, hev⟩
  have he' : e ∈ ((build_adjacency_graph T rows).1).foldl
      (fun G r => addUEdge G (srcKey r) (nbKey r)) [] := he
  rcases mem_graphOfAdj_inv (build_adjacency_graph T rows).1 [] e he' with
    h | ⟨r, hr, h⟩
  · simp at h
  · have hra : r ∈ touchRows T rows := (mem_adjList T rows r).mp hr
    rcases (mem_touchRows T rows r).mp hra with ⟨cc, hcc, nb, hnb, ht, rfl⟩
    have hfst : e.1 = ckey cc ∨ e.1 = ckey nb := by
      rcases h with h | h
      · exact Or.inl (congrArg Prod.fst h)
      · exact Or.inr (congrArg Prod.fst h)
    rcases hfst with h1 | h1
    · have : cc = c := hinj cc hcc c hc (by rw [← h1, hev])
      rw [this] at ht
      rw [(hiso nb hnb).2] at ht
      exact Bool.false_ne_true ht
    · have : nb = c := hinj nb hnb c hc (by rw [← h1, hev])
      rw [this] at ht
      rw [(hiso cc hcc).1] at ht
      exact Bool.false_ne_true ht

/-- Counterexample for C5 as stated: county (3,3) is present and isolated in
the concrete input, yet the degree-centrality output contains no row for it
at all — in particular it is not reported with degree exactly 0. -/
theorem spec_C5_counterexample :
    (⟨3, 3, 2⟩ : CountyGeom) ∈ sampleRows ∧
    (∀ r ∈ sampleRows, sampleTouch 2 r.geom = false ∧ sampleTouch r.geom 2 = false) ∧
    ∀ p ∈ get_degree_centrality (build_adjacency_graph sampleTouch sampleRows).2,
      p.1 ≠ (3, 3) := by
  exact ⟨by decide, by decide, by decide⟩

/-- Witness for C5: the no-duplicate-keys, membership and isolation
hypotheses are discharged at the concrete input by computation. -/
theorem spec_C5_witness :
    ((sampleRows.map ckey).Nodup ∧ (⟨3, 3, 2⟩ : CountyGeom) ∈ sampleRows) ∧
    ∀ p ∈ get_degree_centrality (build_adjacency_graph sampleTouch sampleRows).2,
      p.1 ≠ ckey ⟨3, 3, 2⟩ :=
  ⟨⟨by decide, by decide⟩,
    spec_C5 sampleTouch sampleRows (by decide) ⟨3, 3, 2⟩ (by decide) (by decide)⟩

/-- Witness for C7: the symmetry, irreflexivity and no-duplicate-keys
hypotheses are discharged at the concrete input (symmetry and irreflexivity
of the touches predicate are proved for all geometry identifiers), and the
membership and no-self-loop conclusions are read off: the touching counties
(1,1) and (2,2) appear in both directions and no self-loop exists on
(3,3). -/
theorem spec_C7_witness :
    (⟨1, 1, 2, 2⟩ : AdjRow) ∈ (build_adjacency_graph sampleTouch sampleRows).1 ∧
    (⟨2, 2, 1, 1⟩ : AdjRow) ∈ (build_adjacency_graph sampleTouch sampleRows).1 ∧
    ((1, 1), (2, 2)) ∈ (build_adjacency_graph sampleTouch sampleRows).2 ∧
    (((3, 3), (3, 3)) : CKey × CKey) ∉ (build_adjacency_graph sampleTouch sampleRows).2 := by
  have h := spec_C7 sampleTouch sampleRows
    (fun a b => by simp [sampleTouch, Nat.add_comm])
    (fun g => by simp [sampleTouch]; omega)
    (by decide)
  have hm := h.1 ⟨1, 1, 0⟩ (by decide) ⟨2, 2, 1⟩ (by decide) (by decide)
  exact ⟨hm.1, hm.2.1, hm.2.2.1, h.2.2.2.1 (3, 3)⟩

end GroceryCore

namespace GroceryCore

theorem edgeW_addEdgeW (G : WDiGraph) (u v : CKey) (w : ℚ) (p : CKey × CKey) :
    (addEdgeW G u v w).edgeW p = if p = (u, v) then some w else G.edgeW p :=
  rfl

theorem pagerankStep_edgeW_self (G : WDiGraph) (r : NetRow) (s : CKey)
    (hne : nnbKey r ≠ nsrcKey r) :
    (pagerankStep G r).edgeW (s, s) =
      if nsrcKey r = s ∧ G.edgeW (s, s) = none then some r.mCounty
      else G.edgeW (s, s) := by
  have hdiff : ((s, s) : CKey × CKey) ≠ (nsrcKey r, nnbKey r) := by
    intro h
    exact hne ((congrArg Prod.snd h).symm.trans (congrArg Prod.fst h))
  have huu : ((nsrcKey r, nsrcKey r) : CKey × CKey) ≠ (nsrcKey r, nnbKey r) := by
    intro h
    exact hne (congrArg Prod.snd h).symm
  have h1 : (addEdgeW G (nsrcKey r) (nnbKey r) r.mNb).edgeW (s, s) =
      G.edgeW (s, s) := by
    rw [edgeW_addEdgeW, if_neg hdiff]
  have h2 : (addEdgeW G (nsrcKey r) (nnbKey r) r.mNb).edgeW
      (nsrcKey r, nsrcKey r) = G.edgeW (nsrcKey r, nsrcKey r) := by
    rw [edgeW_addEdgeW, if_neg huu]
  simp only [pagerankStep]
  by_cases hself :
      ((addEdgeW G (nsrcKey r) (nnbKey r) r.mNb).edgeW (nsrcKey r, nsrcKey r)).isSome
  · rw [if_pos hself, h1, if_neg]
    rintro ⟨hs', hnone⟩
    rw [h2, hs', hnone] at hself
    simp at hself
  · rw [if_neg hself, edgeW_addEdgeW]
    rw [h2] at hself
    have hGuu : G.edgeW (nsrcKey r, nsrcKey r) = none := by
      cases hG : G.edgeW (nsrcKey r, nsrcKey r)
      · rfl
      · rw [hG] at hself
        simp at hself
    by_cases hs : nsrcKey r = s
    · subst hs
      rw [if_pos rfl, if_pos ⟨rfl, hGuu⟩]
    · have hp : ((s, s) : CKey × CKey) ≠ (nsrcKey r, nsrcKey r) := by
        intro h
        exact hs (congrArg Prod.fst h).symm
      rw [if_neg hp, h1, if_neg]
      rintro ⟨hs', _⟩
      exact hs hs'

theorem pagerank_selfLoop_from (rows : List NetRow) :
    ∀ (G : WDiGraph) (s : CKey), (∀ x ∈ rows, nnbKey x ≠ nsrcKey x) →
      (rows.foldl pagerankStep G).edgeW (s, s) =
        match G.edgeW (s, s) with
        | some w => some w
        | none => (rows.find? fun x => decide (nsrcKey x = s)).map NetRow.mCounty := by
  induction rows with
  | nil =>
    intro G s _
    rw [List.foldl_nil, List.find?_nil]
    cases hG : G.edgeW (s, s) <;> simp
  | cons r rs ih =>
    intro G s hok
    have hne : nnbKey r ≠ nsrcKey r := hok r (List.mem_cons_self r rs)
    have hok' : ∀ x ∈ rs, nnbKey x ≠ nsrcKey x :=
      fun x hx => hok x (List.mem_cons_of_mem r hx)
    rw [List.foldl_cons, ih (pagerankStep G r) s hok',
      pagerankStep_edgeW_self G r s hne]
    by_cases hs : nsrcKey r = s
    · cases hG : G.edgeW (s, s)
      · rw [if_pos ⟨hs, rfl⟩,
          List.find?_cons_of_pos _ (by simpa using hs)]
        rfl
      · rw [if_neg (by rintro ⟨_, hn⟩; cases hn)]
    · rw [if_neg (by rintro ⟨hs', _⟩; exact hs hs')]
      cases hG : G.edgeW (s, s)
      · rw [List.find?_cons_of_neg _ (by simpa using hs)]
      · rfl

/-- Claim C6, amended: provided no row of the weighted-network table has a
neighbor equal to its source (which holds for every table produced by the
network-weighting step, since the adjacency relation has no self-pairs), the
PageRank graph construction holds exactly one self-loop per source county,
weighted by the source metric of that source's first row in the table, even
when the source appears in multiple rows. When a row's neighbor does equal
its source, the neighbor-metric edge added first is itself the self-loop, so
the guarded self-loop insertion is skipped and the stored weight is that
row's neighbor metric instead — the behavior the counterexample exhibits. -/
theorem spec_C6 (rows : List NetRow)
    (hok : ∀ x ∈ rows, nnbKey x ≠ nsrcKey x) (s : CKey) (r : NetRow)
    (hfind : rows.find? (fun x => decide (nsrcKey x = s)) = some r) :
    (pagerankGraph rows).edgeW (s, s) = some r.mCounty := by
  unfold pagerankGraph
  rw [pagerank_selfLoop_from rows emptyWDi s hok]
  show (rows.find? fun x => decide (nsrcKey x = s)).map NetRow.mCounty =
    some r.mCounty
  rw [hfind]
  rfl

/-- Counterexample for C6 as stated: a single-row table whose neighbor
equals its source. The claim demands a self-loop weighted by the source's
own metric 7 taken from the first row, but the constructed graph stores the
neighbor metric 5 on the self-loop. -/
theorem spec_C6_counterexample :
    (pagerankGraph [⟨1, 1, 1, 1, 7, 5⟩]).edgeW ((1, 1), (1, 1)) = some 5 ∧
    (5 : ℚ) ≠ 7 :=
  ⟨by decide, by decide⟩

/-- Witness for C6: a table in which source (1,1) appears in two rows, with
county metric 7 in the first; the hypotheses are discharged by computation
and the self-loop carries weight 7 from the first occurrence. -/
theorem spec_C6_witness :
    ((∀ x ∈ [(⟨1, 1, 2, 2, 7, 5⟩ : NetRow), ⟨1, 1, 3, 3, 9, 4⟩],
        nnbKey x ≠ nsrcKey x) ∧
      ([(⟨1, 1, 2, 2, 7, 5⟩ : NetRow), ⟨1, 1, 3, 3, 9, 4⟩].find?
        fun x => decide (nsrcKey x = (1, 1))) = some ⟨1, 1, 2, 2, 7, 5⟩) ∧
    (pagerankGraph
        [(⟨1, 1, 2, 2, 7, 5⟩ : NetRow), ⟨1, 1, 3, 3, 9, 4⟩]).edgeW
      ((1, 1), (1, 1)) = some 7 :=
  ⟨⟨by decide, by decide⟩,
    spec_C6 [(⟨1, 1, 2, 2, 7, 5⟩ : NetRow), ⟨1, 1, 3, 3, 9, 4⟩]
      (by decide) (1, 1) ⟨1, 1, 2, 2, 7, 5⟩ (by decide)⟩

theorem addNode_ne_nil (ns : List CKey) (v : CKey) : addNode ns v ≠ [] := by
  unfold addNode
  by_cases h : v ∈ ns
  · rw [if_pos h]
    intro hnil
    rw [hnil] at h
    simp at h
  · rw [if_neg h]
    simp

theorem pagerankStep_nodes_ne_nil (G : WDiGraph) (r : NetRow) :
    (pagerankStep G r).nodes ≠ [] := by
  simp only [pagerankStep]
  by_cases h :
      ((addEdgeW G (nsrcKey r) (nnbKey r) r.mNb).edgeW (nsrcKey r, nsrcKey r)).isSome
  · rw [if_pos h]
    exact addNode_ne_nil _ _
  · rw [if_neg h]
    exact addNode_ne_nil _ _

theorem foldl_nodes_ne_nil (rows : List NetRow) :
    ∀ G : WDiGraph, G.nodes ≠ [] → (rows.foldl pagerankStep G).nodes ≠ [] := by
  induction rows with
  | nil =>
    intro G h
    exact h
  | cons r rs ih =>
    intro G _
    rw [List.foldl_cons]
    exact ih _ (pagerankStep_nodes_ne_nil G r)

/-- Claim C9: the PageRank operation is partial on empty input. On a table
with zero rows the graph is empty, nx.pagerank returns an empty score table,
and reading the single highest-scoring county with iloc[0] fails, so the
operation returns an error rather than an empty score table; on any
non-empty table it succeeds, so a non-empty input table is exactly the
operation's precondition. -/
theorem spec_C9 (score : CKey → ℚ) :
    calculate_pagerank score [] = Except.error PRError.emptyFrame ∧
    ∀ rows : List NetRow, rows ≠ [] →
      ∃ res, calculate_pagerank score rows = Except.ok res := by
  constructor
  · rfl
  · intro rows hrows
    have hnodes : (pagerankGraph rows).nodes ≠ [] := by
      cases rows with
      | nil => exact absurd rfl hrows
      | cons r rs =>
        unfold pagerankGraph
        rw [List.foldl_cons]
        exact foldl_nodes_ne_nil rs _ (pagerankStep_nodes_ne_nil emptyWDi r)
    unfold calculate_pagerank
    cases hs : (sortLe prLe
        ((pagerankGraph rows).nodes.map fun v => (v, score v))).reverse with
    | nil =>
      exfalso
      have h0 : (pagerankGraph rows).nodes.length = 0 := by
        have h1 := congrArg List.length hs
        simpa [(sortLe_perm prLe _).length_eq] using h1
      exact hnodes (List.length_eq_zero.mp h0)
    | cons top rest =>
      exact ⟨(top :: rest, top), rfl⟩

/-- Witness for C9: the inner non-emptiness hypothesis is discharged at a
concrete one-row table. -/
theorem spec_C9_witness :
    calculate_pagerank (fun _ => 0) [] = Except.error PRError.emptyFrame ∧
    ([(⟨1, 1, 2, 2, 7, 5⟩ : NetRow)] ≠ []) ∧
    ∃ res, calculate_pagerank (fun _ => 0) [⟨1, 1, 2, 2, 7, 5⟩] =
      Except.ok res :=
  ⟨(spec_C9 fun _ => 0).1, by decide,
    (spec_C9 fun _ => 0).2 [⟨1, 1, 2, 2, 7, 5⟩] (by decide)⟩

end GroceryCore

namespace GroceryCore

/-- Claim C10: the cluster-characterization operation mutates its caller's
demographic table in place: its post-state is the input table with the GEOID
column written into every row, so whenever some row's GEOID column does not
already hold the reconstructed identifier (in particular whenever the column
is absent), the input table is not left unchanged by the operation. -/
theorem spec_C10 (data : List DemRow) (clustered : List (String × ℕ)) :
    (analyze_cluster_characteristics data clustered).1 = data.map setGeoid ∧
    ∀ (i : ℕ) (r : DemRow), data[i]? = some r →
      r.geoid ≠ some (mkGeoid r.state r.county) →
      (analyze_cluster_characteristics data clustered).1 ≠ data := by
  refine ⟨rfl, ?_⟩
  intro i r hget hne heq
  have h2 : data.map setGeoid = data :=
    (show (analyze_cluster_characteristics data clustered).1 = data.map setGeoid
      from rfl).symm.trans heq
  have h3 := congrArg (fun l => l[i]?) h2
  simp only [List.getElem?_map, hget, Option.map_some'] at h3
  have h4 : setGeoid r = r := Option.some.inj h3
  have h5 := congrArg DemRow.geoid h4
  simp only [setGeoid] at h5
  exact hne h5.symm

/-- Witness for C10: on a one-row table with no GEOID column the hypotheses
are discharged by computation and the post-state differs from the input. -/
theorem spec_C10_witness :
    (analyze_cluster_characteristics [⟨1, 2, none, [3]⟩] []).1 =
      [(⟨1, 2, none, [3]⟩ : DemRow)].map setGeoid ∧
    (analyze_cluster_characteristics [⟨1, 2, none, [3]⟩] []).1 ≠
      [(⟨1, 2, none, [3]⟩ : DemRow)] :=
  ⟨(spec_C10 [⟨1, 2, none, [3]⟩] []).1,
    (spec_C10 [⟨1, 2, none, [3]⟩] []).2 0 ⟨1, 2, none, [3]⟩ rfl (by decide)⟩

end GroceryCore
